import Mathlib

/-!
Verification development for the bioindex Redis client
(src/lib/client.py).  The Python client is shallowly embedded: the
Redis store is an association list from byte-string keys to typed
values, each Redis command used by the client is a Lean function on
that store, and the client operations (register_table, commit_table,
insert_records, count_records, query_records, delete_records,
delete_table) are Lean functions composed from those commands exactly
as the Python composes them.  Byte strings are lists of byte values.
-/

/-- Byte strings (Redis keys, set members, encoded records) as lists of
byte values. -/
abbrev Bytes := List Nat

/-- Bytes of an ASCII string (the client builds every Redis key with
Python f-strings; keys here are the corresponding byte lists). -/
def strBytes (s : String) : Bytes := s.toList.map Char.toNat

/-- Fuel-driven digit extraction; the fuel only bounds the number of
divisions by ten and is always sufficient at the call site in
decRepr. -/
def decReprAux : Nat → Nat → Bytes
  | 0, _ => []
  | fuel + 1, n =>
    if n < 10 then [48 + n]
    else decReprAux fuel (n / 10) ++ [48 + n % 10]

/-- Decimal ASCII digits of a natural number, as byte values; used for
the str(bucket) and str(table_id) parts of keys built by f-strings. -/
def decRepr (n : Nat) : Bytes := decReprAux (n + 1) n

/-- Left inverse of decRepr, used only to prove decRepr injective. -/
def decVal (ds : Bytes) : Nat := ds.foldl (fun a d => a * 10 + (d - 48)) 0

theorem decVal_append (xs : Bytes) (d : Nat) :
    decVal (xs ++ [d]) = decVal xs * 10 + (d - 48) := by
  simp [decVal, List.foldl_append]

theorem decVal_decReprAux (fuel : Nat) : ∀ n, n < fuel →
    decVal (decReprAux fuel n) = n := by
  induction fuel with
  | zero => omega
  | succ fuel ih =>
    intro n hn
    by_cases h : n < 10
    · simp [decReprAux, h, decVal]
    · have hd : n / 10 < fuel := by omega
      rw [decReprAux, if_neg h, decVal_append, ih (n / 10) hd]
      omega

theorem decVal_decRepr (n : Nat) : decVal (decRepr n) = n :=
  decVal_decReprAux (n + 1) n (Nat.lt_succ_self n)

theorem decRepr_inj {m n : Nat} (h : decRepr m = decRepr n) : m = n := by
  have := decVal_decRepr m
  rw [h, decVal_decRepr] at this
  omega

/-!
Record codec.  Modelled from the spec: the module defining
Record.pack is not under src (client.py imports it from .table); per
spec 4.2 and 2 a record is the fixed-shape ordered tuple
(table_id, offset, length) serialized with msgpack, which matches the
framing client.py itself relies on at line 143
(the byte 0x93 is the msgpack header of a 3-element array, followed by
the msgpack encoding of table_id) and at lines 250-256 (loads gives a
3-element sequence whose head is the table_id).
-/

/-- Canonical msgpack encoding of a nonnegative integer below 2 to the
64 (fixint, uint8, uint16, uint32, uint64 forms). -/
def encInt (n : Nat) : Bytes :=
  if n < 128 then [n]
  else if n < 256 then [0xcc, n]
  else if n < 65536 then [0xcd, n / 256, n % 256]
  else if n < 4294967296 then
    [0xce, n / 16777216 % 256, n / 65536 % 256, n / 256 % 256, n % 256]
  else
    [0xcf, n / 72057594037927936 % 256, n / 281474976710656 % 256,
     n / 1099511627776 % 256, n / 4294967296 % 256,
     n / 16777216 % 256, n / 65536 % 256, n / 256 % 256, n % 256]

/-- Modelled from the spec: Record.pack, the encode direction of the
Record Codec (spec 4.2) - msgpack of the 3-array (table_id, offset,
length). -/
def encodeRecord (tableId offset length : Nat) : Bytes :=
  0x93 :: (encInt tableId ++ encInt offset ++ encInt length)

/-- Parse one msgpack nonnegative integer from the front of a byte
string, returning it with the remaining bytes (decode direction of the
codec, as performed by msgpack.loads inside query_records). -/
def decodeInt : Bytes → Option (Nat × Bytes)
  | b :: rest =>
    if b < 128 then some (b, rest)
    else if b = 0xcc then
      match rest with
      | a :: r => some (a, r)
      | _ => none
    else if b = 0xcd then
      match rest with
      | a :: b1 :: r => some (a * 256 + b1, r)
      | _ => none
    else if b = 0xce then
      match rest with
      | a :: b1 :: c :: d :: r =>
        some (((a * 256 + b1) * 256 + c) * 256 + d, r)
      | _ => none
    else if b = 0xcf then
      match rest with
      | a :: b1 :: c :: d :: e :: f :: g :: h :: r =>
        some (((((((a * 256 + b1) * 256 + c) * 256 + d) * 256 + e) * 256
          + f) * 256 + g) * 256 + h, r)
      | _ => none
    else none
  | [] => none

/-- Modelled from the spec: the decode direction of the Record Codec -
msgpack.loads of a record as done by query_records (client.py line
251); fails (as loads raises) on truncated input or trailing bytes. -/
def decodeRecord (bs : Bytes) : Option (Nat × Nat × Nat) :=
  match bs with
  | 0x93 :: rest =>
    match decodeInt rest with
    | some (t, r1) =>
      match decodeInt r1 with
      | some (o, r2) =>
        match decodeInt r2 with
        | some (l, r3) => if r3 = [] then some (t, o, l) else none
        | none => none
      | none => none
    | none => none
  | _ => none

/-!
Redis glob-style matching, as used by the MATCH option of SCAN /
ZSCAN / SSCAN.  This is a transcription of stringmatchlen from Redis
util.c: a star matches any run of bytes (tried over nonempty suffixes
exactly as the C loop does), a question mark matches one byte, an
opening bracket begins a character class (with optional leading caret
negation, ranges with a dash, backslash escapes inside the class, and
the quirky backing-up behaviour when the class is never closed), a
backslash escapes the next pattern byte, and any other byte matches
itself.  The C optimization that collapses consecutive stars is
omitted; it does not change the relation computed here.
delete_records (client.py lines 143, 155, 159) filters members with
this matching against the pattern 0x93 ++ msgpack(table_id) ++ star.
-/

/-- Scan a character class body (the pattern bytes after the opening
bracket and optional caret) against byte c, accumulating whether any
class entry matched; returns the accumulated match and the pattern
remaining after the class (including the closing bracket if present,
mirroring the pointer arithmetic in Redis stringmatchlen). -/
def scanClass : Bytes → Nat → Bool → Bool × Bytes
  | [], _, acc => (acc, [])
  | a :: rest, c, acc =>
    if a = 0x5c then
      match rest with
      | q :: rest2 => scanClass rest2 c (acc || decide (q = c))
      | [] => (acc || decide (a = c), [])
    else if a = 0x5d then (acc, rest)
    else
      match rest with
      | b :: e :: rest2 =>
        if b = 0x2d then
          scanClass rest2 c
            (acc || (decide (min a e ≤ c) && decide (c ≤ max a e)))
        else scanClass (b :: e :: rest2) c (acc || decide (a = c))
      | [b1] => scanClass [b1] c (acc || decide (a = c))
      | [] => (acc || decide (a = c), [])
termination_by p _ _ => p.length
decreasing_by all_goals simp <;> omega

/-- Test at the bottom of the stringmatchlen loop once the string is
exhausted: skip trailing stars and succeed exactly when nothing else
remains of the pattern. -/
def starTail (p : Bytes) : Bool := decide (p.dropWhile (fun b => b == 0x2a) = [])

mutual

/-- Redis stringmatchlen: dispatch on the head pattern byte against a
nonempty string (0x2a star, 0x3f question mark, 0x5b class, 0x5c
escape, else literal); after consuming one atom, if the string is
exhausted the trailing-star test decides, otherwise the loop
continues. -/
def globRun : Bytes → Bytes → Bool
  | [], [] => true
  | [], _ :: _ => false
  | _ :: _, [] => false
  | pb :: pr, c :: s1 =>
    if pb = 0x2a then
      if pr = [] then true else tryStar pr (c :: s1)
    else if pb = 0x3f then
      if s1.isEmpty then starTail pr else globRun pr s1
    else if pb = 0x5b then
      match pr with
      | pb2 :: pc =>
        if pb2 = 0x5e then
          if !(scanClass pc c false).1 then
            if s1.isEmpty then starTail (scanClass pc c false).2
            else globRun (scanClass pc c false).2 s1
          else false
        else
          if (scanClass (pb2 :: pc) c false).1 then
            if s1.isEmpty then starTail (scanClass (pb2 :: pc) c false).2
            else globRun (scanClass (pb2 :: pc) c false).2 s1
          else false
      | [] => false
    else if pb = 0x5c then
      match pr with
      | q :: p2 =>
        if q = c then
          if s1.isEmpty then starTail p2 else globRun p2 s1
        else false
      | [] =>
        if pb = c then
          if s1.isEmpty then starTail [] else globRun [] s1
        else false
    else
      if pb = c then
        if s1.isEmpty then starTail pr else globRun pr s1
      else false
termination_by p s => (s.length, p.length, 0)

/-- The star loop of stringmatchlen: try the pattern after the star
against every nonempty suffix of the string. -/
def tryStar : Bytes → Bytes → Bool
  | _, [] => false
  | p, c :: s1 => globRun p (c :: s1) || tryStar p s1
termination_by p s => (s.length, p.length, 1)

end

set_option maxRecDepth 100000

unseal scanClass globRun tryStar

/-- The MATCH pattern delete_records builds for a table
(client.py line 143): the byte 0x93, the raw msgpack bytes of the
table_id, then a glob star. -/
def deleteMatchPat (tableId : Nat) : Bytes :=
  0x93 :: (encInt tableId ++ [0x2a])

/-!
Data model.  Table mirrors the dataclass whose six fields client.py
reads and writes (lines 66-71 and 93-100); Locus and the chromosome
list are the Locus Model boundary of spec section 6.
-/

/-- Modelled from the spec: the Table dataclass (the .table module is
not under src); its six fields are exactly the ones commit_table
stores and get_table reads (client.py lines 66-71, 93-100, spec
section 3). -/
structure Table where
  path : String
  hash : String
  key : String
  locus : String
  dialect : String
  fieldnames : List String
deriving DecidableEq

/-- Modelled from the spec: the two locus kinds of the Locus Model
boundary (spec section 6) - a point locus carries chromosome and
position, a region locus carries chromosome, start and stop; the
.locus module is not under src and insert_records dispatches on the
kind (client.py lines 189, 193). -/
inductive Locus where
  | snp (chrom : String) (position : Nat)
  | region (chrom : String) (start stop : Nat)
deriving DecidableEq

/-- Modelled from the spec: the fixed, externally defined ordered list
of valid chromosome names iterated by delete_records (client.py line
150, spec section 6); the .locus module defining chromosomes() is not
under src. -/
def chromosomes : List String :=
  ["1", "2", "3", "4", "5", "6", "7", "8", "9", "10", "11", "12",
   "13", "14", "15", "16", "17", "18", "19", "20", "21", "22",
   "X", "Y", "XY", "MT"]

/-- A Redis value: an integer-valued string (the table_id counter and
the table/path reverse-lookup keys), a table metadata hash (the six
fields written by commit_table), a sorted set (member bytes with
integer score, insertion order kept - the claims below depend only on
membership, scores and cardinality, never on the sorted iteration
order), or an unordered set (member list without duplicates, kept in
insertion order for the same reason). -/
inductive RVal where
  | vint (n : Nat)
  | htable (t : Table)
  | zset (xs : List (Bytes × Nat))
  | set (xs : List Bytes)
deriving DecidableEq

/-- The Redis database: an association list from key bytes to values,
no duplicate keys in any state reachable by the operations below. -/
abbrev Store := List (Bytes × RVal)

/-- Key lookup (first binding wins). -/
def slook : Store → Bytes → Option RVal
  | [], _ => none
  | (k, v) :: st, q => if q = k then some v else slook st q

/-- Key write: replace the first binding or append a new one. -/
def sset : Store → Bytes → RVal → Store
  | [], q, v => [(q, v)]
  | (k, w) :: st, q, v =>
    if q = k then (q, v) :: st else (k, w) :: sset st q v

/-- Key removal (DEL, and the automatic removal of a set or sorted
set that becomes empty). -/
def sdel : Store → Bytes → Store
  | [], _ => []
  | (k, w) :: st, q => if q = k then st else (k, w) :: sdel st q

/-- ZADD of a single member: update the score if the member exists,
otherwise append it. -/
def zaddList : List (Bytes × Nat) → Bytes → Nat → List (Bytes × Nat)
  | [], v, sc => [(v, sc)]
  | (m, s) :: rest, v, sc =>
    if v = m then (m, sc) :: rest else (m, s) :: zaddList rest v sc

/-- ZREM of a member list. -/
def zremList (xs : List (Bytes × Nat)) (vs : List Bytes) : List (Bytes × Nat) :=
  xs.filter (fun p => decide (p.1 ∉ vs))

/-- SADD of a single member: a no-op if already present. -/
def saddList (xs : List Bytes) (v : Bytes) : List Bytes :=
  if v ∈ xs then xs else xs ++ [v]

/-- SREM of a member list. -/
def sremList (xs : List Bytes) (vs : List Bytes) : List Bytes :=
  xs.filter (fun m => decide (m ∉ vs))

/-- The write commands the client buffers into a MULTI-EXEC pipeline:
ZADD with one scored member (insert_records line 190), SADD with one
member (lines 198-199), and the prefix-filtered ZREM / SREM of
delete_records (lines 155, 159). -/
inductive Cmd where
  | zadd (k : Bytes) (v : Bytes) (score : Nat)
  | sadd (k : Bytes) (v : Bytes)
  | zrem (k : Bytes) (vs : List Bytes)
  | srem (k : Bytes) (vs : List Bytes)
deriving DecidableEq

/-- Arity validation performed by the server when a command is queued
into a transaction: ZREM and SREM require at least one member, so the
zero-member calls that Python star-unpacking can produce are rejected
at queue time and abort the whole transaction (EXECABORT). -/
def cmdValid : Cmd → Bool
  | .zrem _ vs => !vs.isEmpty
  | .srem _ vs => !vs.isEmpty
  | _ => true

/-- Execute one queued command at EXEC time; none is the WRONGTYPE
runtime error (state unchanged by the failing command, but later
commands of the transaction still run).  A set or sorted set emptied
by a removal is deleted, as Redis does. -/
def applyCmd : Cmd → Store → Option Store
  | .zadd k v score, st =>
    match slook st k with
    | none => some (sset st k (.zset [(v, score)]))
    | some (.zset xs) => some (sset st k (.zset (zaddList xs v score)))
    | some _ => none
  | .sadd k v, st =>
    match slook st k with
    | none => some (sset st k (.set [v]))
    | some (.set xs) => some (sset st k (.set (saddList xs v)))
    | some _ => none
  | .zrem k vs, st =>
    match slook st k with
    | none => some st
    | some (.zset xs) =>
      let xs2 := zremList xs vs
      some (if xs2.isEmpty then sdel st k else sset st k (.zset xs2))
    | some _ => none
  | .srem k vs, st =>
    match slook st k with
    | none => some st
    | some (.set xs) =>
      let xs2 := sremList xs vs
      some (if xs2.isEmpty then sdel st k else sset st k (.set xs2))
    | some _ => none

/-- Run the queued commands in order at EXEC time; the flag records
whether any command failed (redis-py raises the first such error to
the caller after the transaction completes). -/
def runCmds : List Cmd → Store → Store × Bool
  | [], st => (st, false)
  | cmd :: rest, st =>
    match applyCmd cmd st with
    | some st1 => runCmds rest st1
    | none => ((runCmds rest st).1, true)

/-- A MULTI-EXEC transaction: if any queued command fails arity
validation the transaction is discarded (EXECABORT, none - an
exception with no state change); otherwise all commands run and the
flag reports whether any failed at runtime. -/
def execute (cmds : List Cmd) (st : Store) : Option (Store × Bool) :=
  if cmds.all cmdValid then some (runCmds cmds st) else none

/-- The chromosome key of a keyspace, the f-string of client.py lines
186, 213, 232. -/
def chrKey (key c : String) : Bytes := strBytes (key ++ ":" ++ c)

/-- A bucket key: the chromosome key, a colon and the decimal bucket
index (client.py line 195). -/
def bucketKey (key c : String) (b : Nat) : Bytes :=
  chrKey key c ++ (0x3a :: decRepr b)

/-- The metadata key of a table id (client.py line 66). -/
def tableMetaKey (tid : Nat) : Bytes := strBytes "table:" ++ decRepr tid

/-- The reverse-lookup key of a table path (client.py line 44). -/
def tablePathKey (path : String) : Bytes := strBytes ("table/" ++ path)

/-- The table_id counter key (client.py line 51). -/
def counterKey : Bytes := strBytes "table_id"

/-!
Client operations, translated one-to-one from src/lib/client.py.
-/

/-- commit_table (client.py lines 61-71): write the six metadata
fields of the table under its id, unconditionally - the docstring
announces an existence assertion but the body performs none, and HSET
creates the hash when the key is missing. -/
def commitTable (st : Store) (tid : Nat) (t : Table) : Store :=
  sset st (tableMetaKey tid) (.htable t)

/-- get_table (client.py lines 80-100): the metadata of an id, or
none when absent. -/
def getTable (st : Store) (tid : Nat) : Option Table :=
  match slook st (tableMetaKey tid) with
  | some (.htable t) => some t
  | _ => none

/-- get_table_from_path (client.py lines 102-115): resolve the path
to an id and then to its metadata; both components are none when the
path is not registered. -/
def getTableFromPath (st : Store) (path : String) : Option Nat × Option Table :=
  match slook st (tablePathKey path) with
  | some (.vint tid) => (some tid, getTable st tid)
  | _ => (none, none)

/-- register_table (client.py lines 38-59): if the path key exists the
call raises (modelled as the none result) before any write, so the
store is returned unchanged; otherwise INCR the id counter, commit a
placeholder entry with an empty hash, and publish the path-to-id
mapping. -/
def registerTable (st : Store) (t : Table) : Option Nat × Store :=
  if (slook st (tablePathKey t.path)).isSome then (none, st)
  else
    let tid := match slook st counterKey with
      | some (.vint n) => n + 1
      | _ => 1
    let st1 := sset st counterKey (.vint tid)
    let st2 := commitTable st1 tid
      (Table.mk t.path "" t.key t.locus t.dialect t.fieldnames)
    let st3 := sset st2 (tablePathKey t.path) (.vint tid)
    (some tid, st3)

/-- The commands insert_records (client.py lines 175-202) buffers into
its pipeline, in order: one ZADD per point record; for a region
record, per touched bucket in start / 20000 .. stop / 20000, an SADD
registering the bucket key under the chromosome key and an SADD of the
encoded record into the bucket. -/
def insertCmds (baseKey : String) : List (Locus × Bytes) → List Cmd
  | [] => []
  | (l, value) :: rest =>
    (match l with
     | .snp c pos => [Cmd.zadd (chrKey baseKey c) value pos]
     | .region c s e =>
       (List.range' (s / 20000) (e / 20000 + 1 - s / 20000)).flatMap
         (fun b => [Cmd.sadd (chrKey baseKey c) (bucketKey baseKey c b),
                    Cmd.sadd (bucketKey baseKey c b) value]))
    ++ insertCmds baseKey rest

/-- insert_records: buffer all commands and execute them as one
transaction. -/
def insertRecords (baseKey : String) (pairs : List (Locus × Bytes))
    (st : Store) : Option (Store × Bool) :=
  execute (insertCmds baseKey pairs) st

/-- ZCOUNT with the inclusive score range start..stop. -/
def zcount (xs : List (Bytes × Nat)) (start stop : Nat) : Nat :=
  (xs.filter (fun p => decide (start ≤ p.2) && decide (p.2 ≤ stop))).length

/-- SCARD: zero for a missing key, an error for a wrongly typed
one. -/
def scard (st : Store) (k : Bytes) : Option Nat :=
  match slook st k with
  | none => some 0
  | some (.set xs) => some xs.length
  | some _ => none

/-- SMEMBERS: empty for a missing key, an error for a wrongly typed
one. -/
def smembers (st : Store) (k : Bytes) : Option (List Bytes) :=
  match slook st k with
  | none => some []
  | some (.set xs) => some xs
  | some _ => none

/-- The set members at a key, defaulting to the empty list; used only
to state properties of stores whose keys are known to be absent or
sets. -/
def membersOf (st : Store) (k : Bytes) : List Bytes :=
  match slook st k with
  | some (.set xs) => xs
  | _ => []

/-- The bucket indices visited by count_records and query_records:
range(start // 20000, stop // 20000 + 1) (client.py lines 222,
242). -/
def bucketList (start stop : Nat) : List Nat :=
  List.range' (start / 20000) (stop / 20000 + 1 - start / 20000)

/-- The sum of SCARD over the bucket range (count_records lines
219-223). -/
def sumScards (st : Store) (key c : String) : List Nat → Option Nat
  | [] => some 0
  | b :: bs =>
    match scard st (bucketKey key c b), sumScards st key c bs with
    | some m, some n => some (m + n)
    | _, _ => none

/-- count_records (client.py lines 204-225): ZCOUNT when the
chromosome key holds a sorted set, otherwise the sum of the touched
bucket sizes. -/
def countRecords (st : Store) (key c : String) (start stop : Nat) : Option Nat :=
  match slook st (chrKey key c) with
  | some (.zset xs) => some (zcount xs start stop)
  | _ => sumScards st key c (bucketList start stop)

/-- Update of a Python set with a member list: add each member not
already present, keeping first-seen order. -/
def unionAdd (acc : List Bytes) (ms : List Bytes) : List Bytes :=
  ms.foldl (fun a m => if m ∈ a then a else a ++ [m]) acc

/-- The set union query_records builds over the touched buckets
(lines 239-247). -/
def unionMembers (st : Store) (key c : String) :
    List Nat → List Bytes → Option (List Bytes)
  | [], acc => some acc
  | b :: bs, acc =>
    match smembers st (bucketKey key c b) with
    | some ms => unionMembers st key c bs (unionAdd acc ms)
    | none => none

/-- results.setdefault(record[0], list()).append(record[1:]) of
query_records line 255: append the offset-length pair under its
table_id, creating the group on first sight. -/
def addRec (g : List (Nat × List (Nat × Nat))) (t : Nat) (ol : Nat × Nat) :
    List (Nat × List (Nat × Nat)) :=
  match g with
  | [] => [(t, [ol])]
  | (t2, xs) :: rest =>
    if t = t2 then (t2, xs ++ [ol]) :: rest else (t2, xs) :: addRec rest t ol

/-- Unpack every matched member and group by table_id (query_records
lines 250-256); none when any member fails to decode (msgpack.loads
raises). -/
def groupRecs : List Bytes → List (Nat × List (Nat × Nat)) →
    Option (List (Nat × List (Nat × Nat)))
  | [], g => some g
  | r :: rs, g =>
    match decodeRecord r with
    | some (t, o, l) => groupRecs rs (addRec g t (o, l))
    | none => none

/-- query_records (client.py lines 227-258): ZRANGEBYSCORE when the
chromosome key holds a sorted set, otherwise the union of the touched
bucket sets; either way the matched members are decoded and grouped by
table_id. -/
def queryRecords (st : Store) (key c : String) (start stop : Nat) :
    Option (List (Nat × List (Nat × Nat))) :=
  match slook st (chrKey key c) with
  | some (.zset xs) =>
    groupRecs
      ((xs.filter (fun p => decide (start ≤ p.2) && decide (p.2 ≤ stop))).map
        Prod.fst) []
  | _ =>
    (unionMembers st key c (bucketList start stop) []).bind
      (fun ms => groupRecs ms [])

/-- Total number of offset-length pairs in a query result. -/
def sumSizes (g : List (Nat × List (Nat × Nat))) : Nat :=
  (g.map (fun p => p.2.length)).sum

/-- Membership of a value in the sorted set at a key. -/
def memZ (st : Store) (k v : Bytes) : Bool :=
  match slook st k with
  | some (.zset xs) => decide (v ∈ xs.map Prod.fst)
  | _ => false

/-- Membership of a value in the set at a key. -/
def memSet (st : Store) (k v : Bytes) : Bool :=
  match slook st k with
  | some (.set xs) => decide (v ∈ xs)
  | _ => false

/-- The removal commands delete_records gathers for one chromosome key
(client.py lines 150-159): nothing when the key is missing; for a
sorted set, one ZREM with the members matching the table pattern; for
a set, one SREM per member that is itself a set-typed bucket key,
carrying that bucket's matching members; none models the WRONGTYPE
error SSCAN raises when the chromosome key holds neither kind. -/
def deleteCmdsChrom (st : Store) (tid : Nat) (k : Bytes) : Option (List Cmd) :=
  match slook st k with
  | none => some []
  | some (.zset xs) =>
    some [Cmd.zrem k
      ((xs.map Prod.fst).filter (fun m => globRun (deleteMatchPat tid) m))]
  | some (.set buckets) =>
    some (buckets.filterMap (fun bk =>
      match slook st bk with
      | some (.set ms) =>
        some (Cmd.srem bk (ms.filter (fun m => globRun (deleteMatchPat tid) m)))
      | _ => none))
  | some _ => none

/-- The full command list of one delete_records call, over the fixed
chromosome list. -/
def buildDeleteCmds (st : Store) (tid : Nat) (key : String) :
    List String → Option (List Cmd)
  | [] => some []
  | c :: cs =>
    match deleteCmdsChrom st tid (chrKey key c) with
    | some cmds =>
      match buildDeleteCmds st tid key cs with
      | some rest => some (cmds ++ rest)
      | none => none
    | none => none

/-- delete_records (client.py lines 133-162): resolve the table (an
unknown id raises - none), gather the removal commands by scanning the
current store, then execute them as one transaction. -/
def deleteRecords (st : Store) (tid : Nat) : Option (Store × Bool) :=
  match getTable st tid with
  | none => none
  | some tbl =>
    match buildDeleteCmds st tid tbl.key chromosomes with
    | some cmds => execute cmds st
    | none => none

/-- delete_table (client.py lines 117-131): delete_records first; only
when it raised no error are the path key and the metadata key deleted,
in that order.  The flag reports completion; on any exception the call
aborts with the store as the failed step left it. -/
def deleteTable (st : Store) (tid : Nat) : Store × Bool :=
  match deleteRecords st tid with
  | none => (st, false)
  | some (st1, e) =>
    if e then (st1, false)
    else
      match getTable st1 tid with
      | none => (st1, false)
      | some tbl =>
        (sdel (sdel st1 (tablePathKey tbl.path)) (tableMetaKey tid), true)

/-!
Store and command lemmas shared by the claims below.
-/

theorem slook_sset_self (st : Store) (k : Bytes) (v : RVal) :
    slook (sset st k v) k = some v := by
  induction st with
  | nil => simp [sset, slook]
  | cons hd tl ih =>
    by_cases h : k = hd.1
    · simp [sset, h, slook]
    · simpa [sset, slook, h] using ih

theorem slook_sset_ne (st : Store) (k q : Bytes) (v : RVal) (h : q ≠ k) :
    slook (sset st k v) q = slook st q := by
  induction st with
  | nil => simp [sset, slook, h]
  | cons hd tl ih =>
    by_cases hk : k = hd.1
    · subst hk
      simp [sset, slook, h]
    · by_cases hq : q = hd.1 <;> simp [sset, slook, hk, hq, ih]

theorem slook_sdel_ne (st : Store) (k q : Bytes) (h : q ≠ k) :
    slook (sdel st k) q = slook st q := by
  induction st with
  | nil => simp [sdel]
  | cons hd tl ih =>
    by_cases hk : k = hd.1
    · subst hk
      simp [sdel, slook, h]
    · by_cases hq : q = hd.1 <;> simp [sdel, slook, hk, hq, ih]

/-- The single key a command writes to. -/
def cmdKeyOf : Cmd → Bytes
  | .zadd k _ _ => k
  | .sadd k _ => k
  | .zrem k _ => k
  | .srem k _ => k

/-- A successful command leaves every other key unchanged. -/
theorem applyCmd_other {cmd : Cmd} {st st' : Store} (q : Bytes)
    (h : applyCmd cmd st = some st') (hq : q ≠ cmdKeyOf cmd) :
    slook st' q = slook st q := by
  cases cmd with
  | zadd k v score =>
    simp only [applyCmd] at h
    simp only [cmdKeyOf] at hq
    cases hk : slook st k with
    | none =>
      rw [hk] at h
      simp only [Option.some.injEq] at h
      subst h
      exact slook_sset_ne _ _ _ _ hq
    | some rv =>
      rw [hk] at h
      cases rv with
      | vint n => simp at h
      | htable t => simp at h
      | set xs => simp at h
      | zset xs =>
        simp only [Option.some.injEq] at h
        subst h
        exact slook_sset_ne _ _ _ _ hq
  | sadd k v =>
    simp only [applyCmd] at h
    simp only [cmdKeyOf] at hq
    cases hk : slook st k with
    | none =>
      rw [hk] at h
      simp only [Option.some.injEq] at h
      subst h
      exact slook_sset_ne _ _ _ _ hq
    | some rv =>
      rw [hk] at h
      cases rv with
      | vint n => simp at h
      | htable t => simp at h
      | zset xs => simp at h
      | set xs =>
        simp only [Option.some.injEq] at h
        subst h
        exact slook_sset_ne _ _ _ _ hq
  | zrem k vs =>
    simp only [applyCmd] at h
    simp only [cmdKeyOf] at hq
    cases hk : slook st k with
    | none =>
      rw [hk] at h
      simp only [Option.some.injEq] at h
      subst h
      rfl
    | some rv =>
      rw [hk] at h
      cases rv with
      | vint n => simp at h
      | htable t => simp at h
      | set xs => simp at h
      | zset xs =>
        simp only [Option.some.injEq] at h
        subst h
        by_cases he : (zremList xs vs).isEmpty
        · simp only [if_pos he]
          exact slook_sdel_ne _ _ _ hq
        · simp only [if_neg he]
          exact slook_sset_ne _ _ _ _ hq
  | srem k vs =>
    simp only [applyCmd] at h
    simp only [cmdKeyOf] at hq
    cases hk : slook st k with
    | none =>
      rw [hk] at h
      simp only [Option.some.injEq] at h
      subst h
      rfl
    | some rv =>
      rw [hk] at h
      cases rv with
      | vint n => simp at h
      | htable t => simp at h
      | zset xs => simp at h
      | set xs =>
        simp only [Option.some.injEq] at h
        subst h
        by_cases he : (sremList xs vs).isEmpty
        · simp only [if_pos he]
          exact slook_sdel_ne _ _ _ hq
        · simp only [if_neg he]
          exact slook_sset_ne _ _ _ _ hq

/-- Running commands that never write a key leaves it unchanged. -/
theorem runCmds_untouched (cmds : List Cmd) (st : Store) (q : Bytes)
    (h : ∀ cmd ∈ cmds, cmdKeyOf cmd ≠ q) :
    slook (runCmds cmds st).1 q = slook st q := by
  induction cmds generalizing st with
  | nil => simp [runCmds]
  | cons cmd rest ih =>
    have hc : cmdKeyOf cmd ≠ q := h cmd (List.mem_cons_self _ _)
    have hr : ∀ c ∈ rest, cmdKeyOf c ≠ q := fun c hm => h c (List.mem_cons_of_mem _ hm)
    simp only [runCmds]
    cases ha : applyCmd cmd st with
    | none => simpa using ih st hr
    | some st1 =>
      rw [ih st1 hr, applyCmd_other q ha (Ne.symm hc)]

/-- The insert-side commands (ZADD / SADD). -/
def isAdd : Cmd → Bool
  | .zadd _ _ _ => true
  | .sadd _ _ => true
  | _ => false

theorem saddList_mem_self (xs : List Bytes) (v : Bytes) : v ∈ saddList xs v := by
  by_cases h : v ∈ xs <;> simp [saddList, h]

theorem saddList_mem_of_mem {xs : List Bytes} {v : Bytes} (w : Bytes)
    (h : v ∈ xs) : v ∈ saddList xs w := by
  by_cases hw : w ∈ xs <;> simp [saddList, hw, h]

theorem zaddList_fst_of_mem {xs : List (Bytes × Nat)} {v : Bytes} (w : Bytes)
    (sc : Nat) (h : v ∈ xs.map Prod.fst) :
    v ∈ (zaddList xs w sc).map Prod.fst := by
  induction xs with
  | nil => simp at h
  | cons hd tl ih =>
    by_cases hw : w = hd.1
    · simpa [zaddList, hw] using h
    · simp only [List.map_cons, List.mem_cons] at h
      rcases h with h | h
      · simp [zaddList, hw, h]
      · simp [zaddList, hw, ih h]

theorem zaddList_fst_self (xs : List (Bytes × Nat)) (w : Bytes) (sc : Nat) :
    w ∈ (zaddList xs w sc).map Prod.fst := by
  induction xs with
  | nil => simp [zaddList]
  | cons hd tl ih =>
    by_cases hw : w = hd.1
    · simp [zaddList, hw]
    · simp [zaddList, hw, ih]

theorem applyCmd_preserves_memSet {cmd : Cmd} {st st' : Store} {k v : Bytes}
    (hAdd : isAdd cmd = true) (h : applyCmd cmd st = some st')
    (hm : memSet st k v = true) : memSet st' k v = true := by
  by_cases hk : k = cmdKeyOf cmd
  · cases cmd with
    | zadd k2 w sc =>
      simp only [cmdKeyOf] at hk
      subst hk
      simp only [memSet] at hm
      cases hs : slook st k <;> rw [hs] at hm <;> try simp at hm
      rename_i rv
      cases rv <;> simp at hm
      simp only [applyCmd, hs] at h
      simp at h
    | sadd k2 w =>
      simp only [cmdKeyOf] at hk
      subst hk
      simp only [memSet] at hm
      cases hs : slook st k <;> rw [hs] at hm <;> try simp at hm
      rename_i rv
      cases rv <;> simp at hm
      rename_i xs
      simp only [applyCmd, hs, Option.some.injEq] at h
      subst h
      simp [memSet, slook_sset_self]
      exact saddList_mem_of_mem w hm
    | zrem k2 vs => simp [isAdd] at hAdd
    | srem k2 vs => simp [isAdd] at hAdd
  · have := applyCmd_other k h hk
    simpa [memSet, this] using hm

theorem applyCmd_preserves_memZ {cmd : Cmd} {st st' : Store} {k v : Bytes}
    (hAdd : isAdd cmd = true) (h : applyCmd cmd st = some st')
    (hm : memZ st k v = true) : memZ st' k v = true := by
  by_cases hk : k = cmdKeyOf cmd
  · cases cmd with
    | sadd k2 w =>
      simp only [cmdKeyOf] at hk
      subst hk
      simp only [memZ] at hm
      cases hs : slook st k <;> rw [hs] at hm <;> try simp at hm
      rename_i rv
      cases rv <;> simp at hm
      simp only [applyCmd, hs] at h
      simp at h
    | zadd k2 w sc =>
      simp only [cmdKeyOf] at hk
      subst hk
      simp only [memZ] at hm
      cases hs : slook st k <;> rw [hs] at hm <;> try simp at hm
      rename_i rv
      cases rv <;> simp at hm
      rename_i xs
      simp only [applyCmd, hs, Option.some.injEq] at h
      subst h
      simp only [memZ, slook_sset_self]
      simpa using zaddList_fst_of_mem w sc (by simpa using hm)
    | zrem k2 vs => simp [isAdd] at hAdd
    | srem k2 vs => simp [isAdd] at hAdd
  · have := applyCmd_other k h hk
    simpa [memZ, this] using hm

theorem runCmds_preserves_memSet {cmds : List Cmd} {st : Store} {k v : Bytes}
    (hAdd : ∀ c ∈ cmds, isAdd c = true) (hm : memSet st k v = true) :
    memSet (runCmds cmds st).1 k v = true := by
  induction cmds generalizing st with
  | nil => simpa [runCmds] using hm
  | cons cmd rest ih =>
    simp only [runCmds]
    cases ha : applyCmd cmd st with
    | none => exact ih (fun c hc => hAdd c (List.mem_cons_of_mem _ hc)) hm
    | some st1 =>
      exact ih (fun c hc => hAdd c (List.mem_cons_of_mem _ hc))
        (applyCmd_preserves_memSet (hAdd cmd (List.mem_cons_self _ _)) ha hm)

theorem runCmds_preserves_memZ {cmds : List Cmd} {st : Store} {k v : Bytes}
    (hAdd : ∀ c ∈ cmds, isAdd c = true) (hm : memZ st k v = true) :
    memZ (runCmds cmds st).1 k v = true := by
  induction cmds generalizing st with
  | nil => simpa [runCmds] using hm
  | cons cmd rest ih =>
    simp only [runCmds]
    cases ha : applyCmd cmd st with
    | none => exact ih (fun c hc => hAdd c (List.mem_cons_of_mem _ hc)) hm
    | some st1 =>
      exact ih (fun c hc => hAdd c (List.mem_cons_of_mem _ hc))
        (applyCmd_preserves_memZ (hAdd cmd (List.mem_cons_self _ _)) ha hm)

theorem runCmds_sadd_mem {cmds : List Cmd} {st st' : Store} {k v : Bytes}
    (h : runCmds cmds st = (st', false))
    (hAdd : ∀ c ∈ cmds, isAdd c = true) (hmem : Cmd.sadd k v ∈ cmds) :
    memSet st' k v = true := by
  induction cmds generalizing st with
  | nil => simp at hmem
  | cons cmd rest ih =>
    simp only [runCmds] at h
    cases ha : applyCmd cmd st with
    | none =>
      rw [ha] at h
      exact absurd (congrArg Prod.snd h) (by simp)
    | some st1 =>
      rw [ha] at h
      rcases List.mem_cons.mp hmem with hc | hc
      · subst hc
        have hm1 : memSet st1 k v = true := by
          simp only [applyCmd] at ha
          cases hs : slook st k with
          | none =>
            rw [hs] at ha
            simp only [Option.some.injEq] at ha
            subst ha
            simp [memSet, slook_sset_self]
          | some rv =>
            rw [hs] at ha
            cases rv with
            | vint n => simp at ha
            | htable t => simp at ha
            | zset xs => simp at ha
            | set xs =>
              simp only [Option.some.injEq] at ha
              subst ha
              simp only [memSet, slook_sset_self, decide_eq_true_eq]
              exact saddList_mem_self xs v
        have hst : st' = (runCmds rest st1).1 := by
          have := congrArg Prod.fst h
          simpa using this.symm
        rw [hst]
        exact runCmds_preserves_memSet
          (fun c hc2 => hAdd c (List.mem_cons_of_mem _ hc2)) hm1
      · exact ih h (fun c hc2 => hAdd c (List.mem_cons_of_mem _ hc2)) hc

theorem runCmds_zadd_mem {cmds : List Cmd} {st st' : Store} {k v : Bytes}
    {sc : Nat} (h : runCmds cmds st = (st', false))
    (hAdd : ∀ c ∈ cmds, isAdd c = true) (hmem : Cmd.zadd k v sc ∈ cmds) :
    memZ st' k v = true := by
  induction cmds generalizing st with
  | nil => simp at hmem
  | cons cmd rest ih =>
    simp only [runCmds] at h
    cases ha : applyCmd cmd st with
    | none =>
      rw [ha] at h
      exact absurd (congrArg Prod.snd h) (by simp)
    | some st1 =>
      rw [ha] at h
      rcases List.mem_cons.mp hmem with hc | hc
      · subst hc
        have hm1 : memZ st1 k v = true := by
          simp only [applyCmd] at ha
          cases hs : slook st k with
          | none =>
            rw [hs] at ha
            simp only [Option.some.injEq] at ha
            subst ha
            simp [memZ, slook_sset_self]
          | some rv =>
            rw [hs] at ha
            cases rv with
            | vint n => simp at ha
            | htable t => simp at ha
            | set xs => simp at ha
            | zset xs =>
              simp only [Option.some.injEq] at ha
              subst ha
              simp only [memZ, slook_sset_self, decide_eq_true_eq]
              exact zaddList_fst_self xs v sc
        have hst : st' = (runCmds rest st1).1 := by
          have := congrArg Prod.fst h
          simpa using this.symm
        rw [hst]
        exact runCmds_preserves_memZ
          (fun c hc2 => hAdd c (List.mem_cons_of_mem _ hc2)) hm1
      · exact ih h (fun c hc2 => hAdd c (List.mem_cons_of_mem _ hc2)) hc

theorem insertCmds_isAdd (bk : String) (ps : List (Locus × Bytes)) :
    ∀ cmd ∈ insertCmds bk ps, isAdd cmd = true := by
  induction ps with
  | nil => simp [insertCmds]
  | cons p rest ih =>
    intro cmd hc
    obtain ⟨l, v⟩ := p
    cases l with
    | snp c pos =>
      simp only [insertCmds, List.cons_append, List.nil_append,
        List.mem_cons] at hc
      rcases hc with hc | hc
      · subst hc; rfl
      · exact ih cmd hc
    | region c s e =>
      simp only [insertCmds, List.mem_append, List.mem_flatMap] at hc
      rcases hc with ⟨b, _, hcmd⟩ | hc
      · simp only [List.mem_cons, List.mem_singleton] at hcmd
        rcases hcmd with h | h | h <;> first | (subst h; rfl) | simp at h
      · exact ih cmd hc

theorem snp_cmd_mem {bk : String} {ps : List (Locus × Bytes)} {c : String}
    {pos : Nat} {v : Bytes} (h : (Locus.snp c pos, v) ∈ ps) :
    Cmd.zadd (chrKey bk c) v pos ∈ insertCmds bk ps := by
  induction ps with
  | nil => simp at h
  | cons p rest ih =>
    rcases List.mem_cons.mp h with hp | hp
    · subst hp
      simp [insertCmds]
    · obtain ⟨l, w⟩ := p
      cases l <;> simp only [insertCmds, List.mem_append] <;>
        exact Or.inr (ih hp)

theorem region_cmds_mem (bk : String) {ps : List (Locus × Bytes)} {c : String}
    {s e : Nat} {v : Bytes} {b : Nat} (h : (Locus.region c s e, v) ∈ ps)
    (hb1 : s / 20000 ≤ b) (hb2 : b ≤ e / 20000) :
    Cmd.sadd (chrKey bk c) (bucketKey bk c b) ∈ insertCmds bk ps ∧
    Cmd.sadd (bucketKey bk c b) v ∈ insertCmds bk ps := by
  induction ps with
  | nil => simp at h
  | cons p rest ih =>
    rcases List.mem_cons.mp h with hp | hp
    · subst hp
      have hmem : b ∈ List.range' (s / 20000) (e / 20000 + 1 - s / 20000) := by
        simp only [List.mem_range'_1]
        omega
      constructor <;>
        (simp only [insertCmds, List.mem_append, List.mem_flatMap]
         exact Or.inl ⟨b, hmem, by simp⟩)
    · obtain ⟨l, w⟩ := p
      constructor <;>
        (cases l <;> simp only [insertCmds, List.mem_append]) <;>
        first
          | exact Or.inr (ih hp).1
          | exact Or.inr (ih hp).2

/-- C3 counterexample data: the chromosome-1 key of the keyspace
already holds a set (region buckets), so the ZADD for the first point
record fails with WRONGTYPE at EXEC time while the ZADD for the second
(chromosome 2) succeeds; the call raises yet one record of the failed
batch is visible. -/
def c3st : Store := [(chrKey "k" "1", RVal.set [strBytes "junk"])]

def c3pairs : List (Locus × Bytes) :=
  [(Locus.snp "1" 5, encodeRecord 1 0 1), (Locus.snp "2" 6, encodeRecord 1 2 3)]

def c3st2 : Store := ((insertRecords "k" c3pairs c3st).getD ([], false)).1

/-- C3, as written, is false: an insert_records call that fails
mid-batch (a WRONGTYPE error at EXEC time, raised to the caller) can
leave part of the batch observable - here the second record of a
two-record batch is visible in its sorted set after the failed call,
an N-1-of-N partial state. -/
theorem c3_partial_batch_counterexample :
    insertRecords "k" c3pairs c3st = some (c3st2, true) ∧
    memZ c3st2 (chrKey "k" "2") (encodeRecord 1 2 3) = true := by
  constructor <;> decide

/-- C3 amended: a successful insert_records call (its transaction ran
and no command failed) makes every record of the batch visible in its
correct structure: a point record is a member of its chromosome's
sorted set, a region record is a member of every bucket set its span
touches, and each such bucket key is registered under the chromosome
key.  On transport failure the transaction never executes and the
store is untouched by construction of the model; only the per-command
runtime-error path of the counterexample leaks a partial batch. -/
theorem c3_insert_visible_amended (bk : String) (pairs : List (Locus × Bytes))
    (st st' : Store) (h : insertRecords bk pairs st = some (st', false)) :
    ∀ l v, (l, v) ∈ pairs →
      (∀ c pos, l = Locus.snp c pos → memZ st' (chrKey bk c) v = true) ∧
      (∀ c s e, l = Locus.region c s e → ∀ b, s / 20000 ≤ b → b ≤ e / 20000 →
        memSet st' (chrKey bk c) (bucketKey bk c b) = true ∧
        memSet st' (bucketKey bk c b) v = true) := by
  have hrun : runCmds (insertCmds bk pairs) st = (st', false) := by
    simp only [insertRecords, execute] at h
    by_cases hv : (insertCmds bk pairs).all cmdValid
    · rw [if_pos hv] at h
      exact Option.some.inj h
    · rw [if_neg hv] at h
      exact absurd h (by simp)
  intro l v hm
  constructor
  · intro c pos hl
    subst hl
    exact runCmds_zadd_mem hrun (insertCmds_isAdd bk pairs) (snp_cmd_mem hm)
  · intro c s e hl b hb1 hb2
    subst hl
    have hr := region_cmds_mem bk hm hb1 hb2
    exact ⟨runCmds_sadd_mem hrun (insertCmds_isAdd bk pairs) hr.1,
           runCmds_sadd_mem hrun (insertCmds_isAdd bk pairs) hr.2⟩

def c3wSt : Store :=
  ((insertRecords "k" [(Locus.snp "1" 5, encodeRecord 1 0 1)] []).getD
    ([], true)).1

/-- C3 witness: a concrete successful one-record batch is visible. -/
theorem c3_insert_visible_amended_witness :
    insertRecords "k" [(Locus.snp "1" 5, encodeRecord 1 0 1)] ([] : Store)
      = some (c3wSt, false) ∧
    memZ c3wSt (chrKey "k" "1") (encodeRecord 1 0 1) = true :=
  ⟨by decide,
   (c3_insert_visible_amended "k" [(Locus.snp "1" 5, encodeRecord 1 0 1)] []
     c3wSt (by decide) (Locus.snp "1" 5) (encodeRecord 1 0 1)
     (by decide)).1 "1" 5 rfl⟩

/-- A batch of point records for one chromosome, as (position, encoded
record) pairs. -/
def snpPairs (c : String) (ps : List (Nat × Bytes)) : List (Locus × Bytes) :=
  ps.map (fun x => (Locus.snp c x.1, x.2))

theorem insertCmds_snpPairs (bk c : String) (ps : List (Nat × Bytes)) :
    insertCmds bk (snpPairs c ps)
      = ps.map (fun x => Cmd.zadd (chrKey bk c) x.2 x.1) := by
  induction ps with
  | nil => rfl
  | cons x rest ih =>
    simp only [snpPairs] at ih ⊢
    simp [insertCmds, ih]

/-- The sorted set produced by a run of single-member ZADDs. -/
def foldZ (xs : List (Bytes × Nat)) (ps : List (Nat × Bytes)) :
    List (Bytes × Nat) :=
  ps.foldl (fun a x => zaddList a x.2 x.1) xs

theorem runCmds_zadds (k : Bytes) (ps : List (Nat × Bytes)) :
    ∀ (st : Store) (xs : List (Bytes × Nat)),
      slook st k = some (.zset xs) →
      (runCmds (ps.map fun x => Cmd.zadd k x.2 x.1) st).2 = false ∧
      slook (runCmds (ps.map fun x => Cmd.zadd k x.2 x.1) st).1 k
        = some (.zset (foldZ xs ps)) := by
  induction ps with
  | nil =>
    intro st xs h
    simpa [runCmds, foldZ] using h
  | cons x rest ih =>
    intro st xs h
    simp only [List.map_cons, runCmds, applyCmd, h]
    have hml := slook_sset_self st k (RVal.zset (zaddList xs x.2 x.1))
    have := ih (sset st k (RVal.zset (zaddList xs x.2 x.1)))
      (zaddList xs x.2 x.1) hml
    simpa [foldZ] using this

theorem zaddList_not_mem {xs : List (Bytes × Nat)} {v : Bytes} (sc : Nat)
    (h : v ∉ xs.map Prod.fst) : zaddList xs v sc = xs ++ [(v, sc)] := by
  induction xs with
  | nil => rfl
  | cons hd tl ih =>
    simp only [List.map_cons, List.mem_cons, not_or] at h
    simp [zaddList, h.1, ih h.2]

theorem foldZ_nodup (ps : List (Nat × Bytes)) :
    ∀ (xs : List (Bytes × Nat)), (ps.map Prod.snd).Nodup →
      (∀ v ∈ ps.map Prod.snd, v ∉ xs.map Prod.fst) →
      foldZ xs ps = xs ++ ps.map (fun x => (x.2, x.1)) := by
  induction ps with
  | nil => intro xs _ _; simp [foldZ]
  | cons x rest ih =>
    intro xs hnd hdisj
    have hx : x.2 ∉ xs.map Prod.fst :=
      hdisj x.2 (by simp)
    simp only [foldZ, List.foldl_cons]
    rw [zaddList_not_mem x.1 hx]
    have hnd2 : (rest.map Prod.snd).Nodup := by
      simpa using hnd.of_cons
    have hdisj2 : ∀ v ∈ rest.map Prod.snd,
        v ∉ (xs ++ [(x.2, x.1)]).map Prod.fst := by
      intro v hv
      simp only [List.map_append, List.mem_append] at *
      push_neg
      refine ⟨hdisj v (by simp [hv]), ?_⟩
      simp only [List.map_cons, List.map_nil, List.mem_singleton]
      intro he
      subst he
      simp only [List.map_cons, List.nodup_cons] at hnd
      exact hnd.1 hv
    have := ih (xs ++ [(x.2, x.1)]) hnd2 hdisj2
    simpa [foldZ, List.append_assoc] using this

theorem zcount_swap (ps : List (Nat × Bytes)) (start stop : Nat) :
    zcount (ps.map (fun x => (x.2, x.1))) start stop
      = (ps.filter
          (fun x => decide (start ≤ x.1) && decide (x.1 ≤ stop))).length := by
  simp only [zcount, List.filter_map, List.length_map]
  rfl

theorem sumScards_absent (st : Store) (key c : String) (bs : List Nat)
    (h : ∀ b ∈ bs, slook st (bucketKey key c b) = none) :
    sumScards st key c bs = some 0 := by
  induction bs with
  | nil => rfl
  | cons b rest ih =>
    have hb := h b (List.mem_cons_self _ _)
    simp only [sumScards, scard, hb]
    rw [ih (fun x hx => h x (List.mem_cons_of_mem _ hx))]

theorem unionMembers_absent (st : Store) (key c : String) (bs : List Nat)
    (acc : List Bytes)
    (h : ∀ b ∈ bs, slook st (bucketKey key c b) = none) :
    unionMembers st key c bs acc = some acc := by
  induction bs generalizing acc with
  | nil => rfl
  | cons b rest ih =>
    have hb := h b (List.mem_cons_self _ _)
    simp only [unionMembers, smembers, hb]
    exact ih acc (fun x hx => h x (List.mem_cons_of_mem _ hx))

/-- C6: inserting point records with pairwise distinct encodings on
one chromosome of a previously unwritten keyspace, count_records is
exact - it returns precisely the number of inserted records whose
position lies in the inclusive range start..stop. -/
theorem c6_point_count_exact (bk c : String) (ps : List (Nat × Bytes))
    (st st' : Store) (start stop : Nat)
    (hnd : (ps.map Prod.snd).Nodup)
    (hck : slook st (chrKey bk c) = none)
    (hbk : ∀ i, slook st (bucketKey bk c i) = none)
    (hok : insertRecords bk (snpPairs c ps) st = some (st', false)) :
    countRecords st' bk c start stop
      = some ((ps.filter
          (fun x => decide (start ≤ x.1) && decide (x.1 ≤ stop))).length) := by
  have hrun : runCmds (insertCmds bk (snpPairs c ps)) st = (st', false) := by
    simp only [insertRecords, execute] at hok
    by_cases hv : (insertCmds bk (snpPairs c ps)).all cmdValid
    · rw [if_pos hv] at hok
      exact Option.some.inj hok
    · rw [if_neg hv] at hok
      exact absurd hok (by simp)
  rw [insertCmds_snpPairs] at hrun
  cases ps with
  | nil =>
    simp only [List.map_nil, runCmds] at hrun
    have hst : st = st' := congrArg Prod.fst hrun
    subst hst
    simp only [countRecords, hck, List.filter_nil, List.length_nil]
    exact sumScards_absent st bk c _ (fun b _ => hbk b)
  | cons x rest =>
    simp only [List.map_cons, runCmds, applyCmd, hck] at hrun
    have hzs := runCmds_zadds (chrKey bk c) rest
      (sset st (chrKey bk c) (RVal.zset [(x.2, x.1)])) [(x.2, x.1)]
      (slook_sset_self _ _ _)
    have hst : st' = (runCmds (rest.map fun x => Cmd.zadd (chrKey bk c) x.2 x.1)
        (sset st (chrKey bk c) (RVal.zset [(x.2, x.1)]))).1 :=
      (congrArg Prod.fst hrun).symm
    have hfold : foldZ [(x.2, x.1)] rest
        = (x :: rest).map (fun y => (y.2, y.1)) := by
      have hnodup := hnd
      have hrec := foldZ_nodup rest [(x.2, x.1)]
        (by simpa using hnodup.of_cons)
        (by
          intro v hv
          simp only [List.map_cons, List.map_nil, List.mem_singleton]
          intro he
          subst he
          simp only [List.map_cons, List.nodup_cons] at hnodup
          exact hnodup.1 hv)
      simpa using hrec
    rw [hst]
    simp only [countRecords, hzs.2, hfold]
    rw [zcount_swap]

def c6ps : List (Nat × Bytes) :=
  [(100, encodeRecord 1 0 1), (5000, encodeRecord 1 1 1),
   (20000, encodeRecord 1 2 1), (20001, encodeRecord 1 3 1)]

def c6St : Store := ((insertRecords "k" (snpPairs "1" c6ps) []).getD ([], true)).1

/-- C6 witness: the four point records of spec property 3 give exactly
count 3 on 100..20000. -/
theorem c6_point_count_exact_witness :
    insertRecords "k" (snpPairs "1" c6ps) ([] : Store) = some (c6St, false) ∧
    countRecords c6St "k" "1" 100 20000 = some 3 := by
  refine ⟨by decide, ?_⟩
  rw [c6_point_count_exact "k" "1" c6ps [] c6St 100 20000 (by decide) rfl
    (fun i => rfl) (by decide)]
  decide

/-- C9: count_records and query_records on a chromosome key that was
never written (and whose bucket keys were never written) do not fail:
the count is zero and the query result is the empty mapping. -/
theorem c9_missing_chromosome_empty (st : Store) (key c : String)
    (start stop : Nat)
    (hck : slook st (chrKey key c) = none)
    (hbk : ∀ i, slook st (bucketKey key c i) = none) :
    countRecords st key c start stop = some 0 ∧
    queryRecords st key c start stop = some [] := by
  constructor
  · simp only [countRecords, hck]
    exact sumScards_absent st key c _ (fun b _ => hbk b)
  · simp only [queryRecords, hck]
    rw [unionMembers_absent st key c _ [] (fun b _ => hbk b)]
    rfl

/-- C9 witness: the empty store answers zero and empty for an unknown
keyspace. -/
theorem c9_missing_chromosome_empty_witness :
    countRecords ([] : Store) "nokey" "1" 0 99999 = some 0 ∧
    queryRecords ([] : Store) "nokey" "1" 0 99999 = some [] :=
  c9_missing_chromosome_empty [] "nokey" "1" 0 99999 rfl (fun _ => rfl)

theorem sumSizes_addRec (g : List (Nat × List (Nat × Nat))) (t : Nat)
    (ol : Nat × Nat) : sumSizes (addRec g t ol) = sumSizes g + 1 := by
  induction g with
  | nil => simp [sumSizes, addRec]
  | cons hd rest ih =>
    obtain ⟨t2, xs⟩ := hd
    by_cases h : t = t2
    · simp [addRec, h, sumSizes]
      omega
    · simp only [addRec, if_neg h, sumSizes, List.map_cons, List.sum_cons]
      simp only [sumSizes] at ih
      omega

theorem groupRecs_sumSizes (ms : List Bytes) :
    ∀ (g g' : List (Nat × List (Nat × Nat))), groupRecs ms g = some g' →
      sumSizes g' = sumSizes g + ms.length := by
  induction ms with
  | nil =>
    intro g g' h
    simp only [groupRecs, Option.some.injEq] at h
    subst h
    simp
  | cons r rs ih =>
    intro g g' h
    simp only [groupRecs] at h
    cases hd : decodeRecord r with
    | none => rw [hd] at h; simp at h
    | some rec =>
      rw [hd] at h
      obtain ⟨t, o, l⟩ := rec
      have := ih (addRec g t (o, l)) g' h
      rw [this, sumSizes_addRec]
      simp only [List.length_cons]
      omega

theorem smembers_scard {st : Store} {k : Bytes} {ms : List Bytes}
    (h : smembers st k = some ms) : scard st k = some ms.length := by
  simp only [smembers] at h
  cases hs : slook st k with
  | none =>
    rw [hs] at h
    simp only [Option.some.injEq] at h
    subst h
    simp [scard, hs]
  | some rv =>
    rw [hs] at h
    cases rv <;> simp at h
    subst h
    simp [scard, hs]

theorem unionAdd_len (ms : List Bytes) :
    ∀ acc : List Bytes, (unionAdd acc ms).length ≤ acc.length + ms.length := by
  induction ms with
  | nil => intro acc; simp [unionAdd]
  | cons m rest ih =>
    intro acc
    simp only [unionAdd, List.foldl_cons]
    by_cases h : m ∈ acc
    · have := ih acc
      simp only [unionAdd] at this
      simp only [if_pos h]
      simpa using Nat.le_trans this (by omega)
    · have := ih (acc ++ [m])
      simp only [unionAdd] at this
      simp only [if_neg h]
      simp only [List.length_append, List.length_cons, List.length_nil]
        at this ⊢
      omega

theorem unionMembers_len (st : Store) (key c : String) (bs : List Nat) :
    ∀ (acc out : List Bytes) (n : Nat),
      unionMembers st key c bs acc = some out →
      sumScards st key c bs = some n →
      out.length ≤ acc.length + n := by
  induction bs with
  | nil =>
    intro acc out n hu hs
    simp only [unionMembers, Option.some.injEq] at hu
    simp only [sumScards, Option.some.injEq] at hs
    subst hu
    omega
  | cons b rest ih =>
    intro acc out n hu hs
    simp only [unionMembers] at hu
    cases hm : smembers st (bucketKey key c b) with
    | none => rw [hm] at hu; simp at hu
    | some ms =>
      rw [hm] at hu
      simp only [sumScards, smembers_scard hm] at hs
      cases hr : sumScards st key c rest with
      | none => rw [hr] at hs; simp at hs
      | some n2 =>
        rw [hr] at hs
        simp only [Option.some.injEq] at hs
        have h1 := ih (unionAdd acc ms) out n2 hu hr
        have h2 := unionAdd_len ms acc
        omega

/-- The bucket-branch inequality shared by the cases of the C10
theorem. -/
theorem countQuery_bucket_le {st : Store} {key c : String} {start stop : Nat}
    {g : List (Nat × List (Nat × Nat))} {n : Nat}
    (hq : (unionMembers st key c (bucketList start stop) []).bind
      (fun ms => groupRecs ms []) = some g)
    (hc : sumScards st key c (bucketList start stop) = some n) :
    sumSizes g ≤ n := by
  rcases Option.bind_eq_some.mp hq with ⟨ms, hu, hg⟩
  have hsum := groupRecs_sumSizes ms [] g hg
  have hlen := unionMembers_len st key c (bucketList start stop) [] ms n hu hc
  have hss : sumSizes g = ms.length := by
    simpa [sumSizes] using hsum
  rw [hss]
  simpa using hlen

/-- C10: the count of a range is at least the total number of
offset-length pairs the query of the same range returns - the query
deduplicates a record stored in several touched buckets while the
count sums bucket sizes - and on a chromosome whose key holds the
ordered-association kind the two agree exactly. -/
theorem c10_count_ge_query (st : Store) (key c : String) (start stop : Nat)
    (g : List (Nat × List (Nat × Nat))) (n : Nat)
    (hq : queryRecords st key c start stop = some g)
    (hc : countRecords st key c start stop = some n) :
    sumSizes g ≤ n ∧
    (∀ xs, slook st (chrKey key c) = some (RVal.zset xs) → sumSizes g = n) := by
  cases hz : slook st (chrKey key c) with
  | some rv =>
    cases rv with
    | zset xs =>
      simp only [queryRecords, hz] at hq
      simp only [countRecords, hz, Option.some.injEq] at hc
      have hg := groupRecs_sumSizes _ [] g hq
      have hsz : sumSizes g = zcount xs start stop := by
        simp only [sumSizes, List.map_nil, List.sum_nil, Nat.zero_add,
          List.length_map] at hg
        simpa [sumSizes, zcount] using hg
      subst hc
      exact ⟨le_of_eq hsz, fun _ _ => hsz⟩
    | vint m =>
      simp only [queryRecords, hz] at hq
      simp only [countRecords, hz] at hc
      refine ⟨countQuery_bucket_le hq hc, ?_⟩
      intro xs hx
      simp at hx
    | htable t =>
      simp only [queryRecords, hz] at hq
      simp only [countRecords, hz] at hc
      refine ⟨countQuery_bucket_le hq hc, ?_⟩
      intro xs hx
      simp at hx
    | set xs =>
      simp only [queryRecords, hz] at hq
      simp only [countRecords, hz] at hc
      refine ⟨countQuery_bucket_le hq hc, ?_⟩
      intro xs2 hx
      simp at hx
  | none =>
    simp only [queryRecords, hz] at hq
    simp only [countRecords, hz] at hc
    refine ⟨countQuery_bucket_le hq hc, ?_⟩
    intro xs hx
    simp at hx

def c10St : Store := [(chrKey "k" "1", RVal.zset [(encodeRecord 1 2 3, 5)])]

/-- C10 witness: on a one-record sorted set, query returns one pair
and count is one. -/
theorem c10_count_ge_query_witness :
    queryRecords c10St "k" "1" 0 10 = some [(1, [(2, 3)])] ∧
    countRecords c10St "k" "1" 0 10 = some 1 ∧
    sumSizes [(1, [(2, 3)])] ≤ 1 :=
  ⟨by decide, by decide,
   (c10_count_ge_query c10St "k" "1" 0 10 [(1, [(2, 3)])] 1 (by decide)
     (by decide)).1⟩

/-- A batch of region records for one chromosome, as (start, stop,
encoded record) triples. -/
def regionPairs (c : String) (rs : List (Nat × Nat × Bytes)) :
    List (Locus × Bytes) :=
  rs.map (fun x => (Locus.region c x.1 x.2.1, x.2.2))

/-- The set-insert commands (SADD only). -/
def isSadd : Cmd → Bool
  | .sadd _ _ => true
  | _ => false

theorem insertCmds_regionPairs_sadd (bk c : String)
    (rs : List (Nat × Nat × Bytes)) :
    ∀ cmd ∈ insertCmds bk (regionPairs c rs), isSadd cmd = true := by
  induction rs with
  | nil => simp [regionPairs, insertCmds]
  | cons x rest ih =>
    intro cmd hc
    simp only [regionPairs, List.map_cons, insertCmds, List.mem_append,
      List.mem_flatMap] at hc
    rcases hc with ⟨b, _, hcmd⟩ | hc
    · simp only [List.mem_cons, List.mem_singleton] at hcmd
      rcases hcmd with h | h | h <;> first | (subst h; rfl) | simp at h
    · exact ih cmd hc

theorem isSadd_isAdd {cmd : Cmd} (h : isSadd cmd = true) : isAdd cmd = true := by
  cases cmd <;> simp_all [isSadd, isAdd]

/-- A key holding nothing or a set (never a sorted set, string or
hash). -/
def noneOrSet (st : Store) (k : Bytes) : Prop :=
  slook st k = none ∨ ∃ xs, slook st k = some (RVal.set xs)

theorem applyCmd_sadd_noneOrSet {cmd : Cmd} {st st' : Store} {k : Bytes}
    (hs : isSadd cmd = true) (h : applyCmd cmd st = some st')
    (hk : noneOrSet st k) : noneOrSet st' k := by
  cases cmd with
  | zadd k2 v sc => simp [isSadd] at hs
  | zrem k2 vs => simp [isSadd] at hs
  | srem k2 vs => simp [isSadd] at hs
  | sadd k2 v =>
    by_cases hkk : k = k2
    · subst hkk
      simp only [applyCmd] at h
      cases hl : slook st k with
      | none =>
        rw [hl] at h
        simp only [Option.some.injEq] at h
        subst h
        exact Or.inr ⟨[v], slook_sset_self _ _ _⟩
      | some rv =>
        rw [hl] at h
        cases rv with
        | vint n => simp at h
        | htable t => simp at h
        | zset xs => simp at h
        | set xs =>
          simp only [Option.some.injEq] at h
          subst h
          exact Or.inr ⟨saddList xs v, slook_sset_self _ _ _⟩
    · have := applyCmd_other k h (by simpa [cmdKeyOf] using hkk)
      rw [noneOrSet, this]
      exact hk

theorem runCmds_sadd_noneOrSet {cmds : List Cmd} {st : Store} {k : Bytes}
    (hs : ∀ cmd ∈ cmds, isSadd cmd = true) (hk : noneOrSet st k) :
    noneOrSet (runCmds cmds st).1 k := by
  induction cmds generalizing st with
  | nil => simpa [runCmds] using hk
  | cons cmd rest ih =>
    simp only [runCmds]
    cases ha : applyCmd cmd st with
    | none => exact ih (fun x hx => hs x (List.mem_cons_of_mem _ hx)) hk
    | some st1 =>
      exact ih (fun x hx => hs x (List.mem_cons_of_mem _ hx))
        (applyCmd_sadd_noneOrSet (hs cmd (List.mem_cons_self _ _)) ha hk)

theorem insertCmds_regionPairs_keys (bk c : String)
    (rs : List (Nat × Nat × Bytes)) :
    ∀ cmd ∈ insertCmds bk (regionPairs c rs),
      cmdKeyOf cmd = chrKey bk c ∨
      ∃ x ∈ rs, ∃ b, x.1 / 20000 ≤ b ∧ b ≤ x.2.1 / 20000 ∧
        cmdKeyOf cmd = bucketKey bk c b := by
  induction rs with
  | nil => simp [regionPairs, insertCmds]
  | cons x rest ih =>
    intro cmd hc
    simp only [regionPairs, List.map_cons, insertCmds, List.mem_append,
      List.mem_flatMap] at hc
    rcases hc with ⟨b, hb, hcmd⟩ | hc
    · simp only [List.mem_range'_1] at hb
      simp only [List.mem_cons, List.mem_singleton] at hcmd
      rcases hcmd with h | h | h
      · subst h; exact Or.inl rfl
      · subst h
        exact Or.inr ⟨x, List.mem_cons_self _ _, b, by omega, by omega, rfl⟩
      · simp at h
    · rcases ih cmd hc with h | ⟨y, hy, b, h1, h2, h3⟩
      · exact Or.inl h
      · exact Or.inr ⟨y, List.mem_cons_of_mem _ hy, b, h1, h2, h3⟩

theorem chrKey_ne_bucketKey (bk c : String) (b : Nat) :
    chrKey bk c ≠ bucketKey bk c b := by
  intro h
  have := congrArg List.length h
  simp only [bucketKey, List.length_append, List.length_cons] at this
  omega

theorem bucketKey_inj {bk c : String} {b b' : Nat}
    (h : bucketKey bk c b = bucketKey bk c b') : b = b' := by
  simp only [bucketKey] at h
  have h2 := List.append_cancel_left h
  simp only [List.cons.injEq] at h2
  exact decRepr_inj h2.2

theorem memSet_membersOf {st : Store} {k v : Bytes}
    (h : memSet st k v = true) : v ∈ membersOf st k := by
  simp only [memSet] at h
  cases hl : slook st k with
  | none => rw [hl] at h; simp at h
  | some rv =>
    rw [hl] at h
    cases rv <;> simp at h
    simpa [membersOf, hl] using h

theorem scard_membersOf {st : Store} {k : Bytes} (h : noneOrSet st k) :
    scard st k = some (membersOf st k).length := by
  rcases h with h | ⟨xs, h⟩ <;> simp [scard, membersOf, h]

theorem sumScards_shape (st : Store) (key c : String) (bs : List Nat)
    (h : ∀ b ∈ bs, noneOrSet st (bucketKey key c b)) :
    sumScards st key c bs
      = some ((bs.map
          (fun b => (membersOf st (bucketKey key c b)).length)).sum) := by
  induction bs with
  | nil => rfl
  | cons b rest ih =>
    simp only [sumScards, scard_membersOf (h b (List.mem_cons_self _ _)),
      ih (fun x hx => h x (List.mem_cons_of_mem _ hx)), List.map_cons,
      List.sum_cons]

/-- The distinct members across the touched buckets. -/
def bucketsUnion (st : Store) (key c : String) : List Nat → Finset Bytes
  | [] => ∅
  | b :: bs => (membersOf st (bucketKey key c b)).toFinset ∪
      bucketsUnion st key c bs

theorem bucketsUnion_card_le (st : Store) (key c : String) (bs : List Nat) :
    (bucketsUnion st key c bs).card
      ≤ (bs.map (fun b => (membersOf st (bucketKey key c b)).length)).sum := by
  induction bs with
  | nil => simp [bucketsUnion]
  | cons b rest ih =>
    simp only [bucketsUnion, List.map_cons, List.sum_cons]
    calc ((membersOf st (bucketKey key c b)).toFinset ∪
        bucketsUnion st key c rest).card
        ≤ (membersOf st (bucketKey key c b)).toFinset.card
          + (bucketsUnion st key c rest).card := Finset.card_union_le _ _
      _ ≤ (membersOf st (bucketKey key c b)).length
          + (rest.map
              (fun b => (membersOf st (bucketKey key c b)).length)).sum := by
          have := (membersOf st (bucketKey key c b)).toFinset_card_le
          omega

theorem mem_bucketsUnion {st : Store} {key c : String} {bs : List Nat}
    {b : Nat} {x : Bytes} (hb : b ∈ bs)
    (hx : x ∈ membersOf st (bucketKey key c b)) :
    x ∈ bucketsUnion st key c bs := by
  induction bs with
  | nil => simp at hb
  | cons b2 rest ih =>
    simp only [bucketsUnion, Finset.mem_union]
    rcases List.mem_cons.mp hb with h | h
    · subst h
      exact Or.inl (List.mem_toFinset.mpr hx)
    · exact Or.inr (ih h)

theorem insertRecords_run {bk : String} {pairs : List (Locus × Bytes)}
    {st st' : Store} (h : insertRecords bk pairs st = some (st', false)) :
    runCmds (insertCmds bk pairs) st = (st', false) := by
  simp only [insertRecords, execute] at h
  by_cases hv : (insertCmds bk pairs).all cmdValid
  · rw [if_pos hv] at h
    exact Option.some.inj h
  · rw [if_neg hv] at h
    exact absurd h (by simp)

/-- C2 amended: for a batch of well-formed region records with
pairwise distinct encodings inserted on one chromosome of a previously
unwritten keyspace, count_records over a range start..stop is at least
the number of inserted records whose span overlaps the range; and when
the range's buckets meet no bucket touched by any inserted record the
count is exactly zero. -/
theorem c2_region_count_amended (bk c : String) (rs : List (Nat × Nat × Bytes))
    (st st' : Store) (start stop : Nat)
    (hnd : (rs.map (fun x => x.2.2)).Nodup)
    (hwf : ∀ x ∈ rs, x.1 ≤ x.2.1)
    (hse : start ≤ stop)
    (hck : slook st (chrKey bk c) = none)
    (hbk : ∀ i, slook st (bucketKey bk c i) = none)
    (hok : insertRecords bk (regionPairs c rs) st = some (st', false)) :
    (∃ n, countRecords st' bk c start stop = some n ∧
      (rs.filter
        (fun x => decide (x.1 ≤ stop) && decide (start ≤ x.2.1))).length ≤ n) ∧
    ((∀ x ∈ rs, ∀ b, x.1 / 20000 ≤ b → b ≤ x.2.1 / 20000 →
        b < start / 20000 ∨ stop / 20000 < b) →
      countRecords st' bk c start stop = some 0) := by
  have hrun := insertRecords_run hok
  have hsadds := insertCmds_regionPairs_sadd bk c rs
  have hst' : st' = (runCmds (insertCmds bk (regionPairs c rs)) st).1 :=
    (congrArg Prod.fst hrun).symm
  have hckshape : noneOrSet st' (chrKey bk c) :=
    hst' ▸ runCmds_sadd_noneOrSet hsadds (Or.inl hck)
  have hbshape : ∀ b, noneOrSet st' (bucketKey bk c b) := fun b =>
    hst' ▸ runCmds_sadd_noneOrSet hsadds (Or.inl (hbk b))
  have hcount : countRecords st' bk c start stop
      = sumScards st' bk c (bucketList start stop) := by
    rcases hckshape with h | ⟨xs, h⟩ <;> simp [countRecords, h]
  have hds : start / 20000 ≤ stop / 20000 := Nat.div_le_div_right hse
  constructor
  · rw [hcount, sumScards_shape st' bk c _ (fun b _ => hbshape b)]
    refine ⟨_, rfl, ?_⟩
    have hOnodup : ((rs.filter
        (fun x => decide (x.1 ≤ stop) && decide (start ≤ x.2.1))).map
          (fun x => x.2.2)).Nodup :=
      hnd.sublist (List.Sublist.map _ (List.filter_sublist rs))
    have hOcard : ((rs.filter
        (fun x => decide (x.1 ≤ stop) && decide (start ≤ x.2.1))).map
          (fun x => x.2.2)).toFinset.card
        = (rs.filter
            (fun x => decide (x.1 ≤ stop) && decide (start ≤ x.2.1))).length := by
      rw [List.toFinset_card_of_nodup hOnodup, List.length_map]
    have hsubset : ((rs.filter
        (fun x => decide (x.1 ≤ stop) && decide (start ≤ x.2.1))).map
          (fun x => x.2.2)).toFinset
        ⊆ bucketsUnion st' bk c (bucketList start stop) := by
      intro x hx
      simp only [List.mem_toFinset, List.mem_map] at hx
      obtain ⟨y, hyf, hyx⟩ := hx
      have hymem : y ∈ rs := List.mem_of_mem_filter hyf
      have hcond := List.of_mem_filter hyf
      simp only [Bool.and_eq_true, decide_eq_true_eq] at hcond
      obtain ⟨hy1, hy2⟩ := hcond
      have hwfy := hwf y hymem
      have hb1 : y.1 / 20000 ≤ max y.1 start / 20000 :=
        Nat.div_le_div_right (le_max_left _ _)
      have hb2 : max y.1 start / 20000 ≤ y.2.1 / 20000 :=
        Nat.div_le_div_right (by omega)
      have hbs : start / 20000 ≤ max y.1 start / 20000 :=
        Nat.div_le_div_right (le_max_right _ _)
      have hbe : max y.1 start / 20000 ≤ stop / 20000 :=
        Nat.div_le_div_right (by omega)
      have hbB : max y.1 start / 20000 ∈ bucketList start stop := by
        simp only [bucketList, List.mem_range'_1]
        omega
      have hpair : (Locus.region c y.1 y.2.1, y.2.2) ∈ regionPairs c rs := by
        simp only [regionPairs, List.mem_map]
        exact ⟨y, hymem, rfl⟩
      have hcmd := (region_cmds_mem bk hpair hb1 hb2).2
      have hms : memSet st' (bucketKey bk c (max y.1 start / 20000)) y.2.2
          = true :=
        runCmds_sadd_mem hrun
          (fun cmd hc => isSadd_isAdd (hsadds cmd hc)) hcmd
      rw [← hyx]
      exact mem_bucketsUnion hbB (memSet_membersOf hms)
    calc (rs.filter
        (fun x => decide (x.1 ≤ stop) && decide (start ≤ x.2.1))).length
        = ((rs.filter
            (fun x => decide (x.1 ≤ stop) && decide (start ≤ x.2.1))).map
              (fun x => x.2.2)).toFinset.card := hOcard.symm
      _ ≤ (bucketsUnion st' bk c (bucketList start stop)).card :=
          Finset.card_le_card hsubset
      _ ≤ ((bucketList start stop).map
            (fun b => (membersOf st' (bucketKey bk c b)).length)).sum :=
          bucketsUnion_card_le st' bk c (bucketList start stop)
  · intro hdis
    have huntouched : ∀ b ∈ bucketList start stop,
        slook st' (bucketKey bk c b) = none := by
      intro b hbB
      simp only [bucketList, List.mem_range'_1] at hbB
      have hkeys : ∀ cmd ∈ insertCmds bk (regionPairs c rs),
          cmdKeyOf cmd ≠ bucketKey bk c b := by
        intro cmd hc
        rcases insertCmds_regionPairs_keys bk c rs cmd hc
          with h | ⟨y, hy, b2, h1, h2, h3⟩
        · rw [h]; exact chrKey_ne_bucketKey bk c b
        · rw [h3]
          intro he
          have hbb := bucketKey_inj he
          subst hbb
          rcases hdis y hy b2 h1 h2 with h4 | h4 <;> omega
      rw [hst', runCmds_untouched _ _ _ hkeys]
      exact hbk b
    rw [hcount]
    exact sumScards_absent st' bk c _ huntouched

def c2r : Bytes := encodeRecord 1 0 10

def c2rs : List (Nat × Nat × Bytes) := [(0, 100, c2r), (5, 50, c2r)]

def c2St : Store := ((insertRecords "k" (regionPairs "1" c2rs) []).getD ([], true)).1

/-- C2, as written, is false: two inserted region records sharing one
encoding collapse to a single member of bucket zero, so the count over
a range overlapping both true spans is one, strictly below the two
inserted overlapping records. -/
theorem c2_region_count_counterexample :
    insertRecords "k" (regionPairs "1" c2rs) ([] : Store) = some (c2St, false) ∧
    countRecords c2St "k" "1" 0 100 = some 1 ∧
    (c2rs.filter
      (fun x => decide (x.1 ≤ 100) && decide (0 ≤ x.2.1))).length = 2 := by
  refine ⟨by decide, by decide, by decide⟩

def c2wrs : List (Nat × Nat × Bytes) := [(5, 50, encodeRecord 1 0 1)]

def c2wSt : Store := ((insertRecords "k" (regionPairs "1" c2wrs) []).getD ([], true)).1

/-- C2 witness: one region record overlapping the queried range gives
a count of at least one, and a range whose buckets meet no touched
bucket counts zero. -/
theorem c2_region_count_amended_witness :
    insertRecords "k" (regionPairs "1" c2wrs) ([] : Store) = some (c2wSt, false) ∧
    (∃ n, countRecords c2wSt "k" "1" 0 100 = some n ∧ 1 ≤ n) ∧
    countRecords c2wSt "k" "1" 100000 120000 = some 0 := by
  refine ⟨by decide, ?_, ?_⟩
  · obtain ⟨n, hn, hln⟩ := (c2_region_count_amended "k" "1" c2wrs [] c2wSt 0 100
      (by decide) (by decide) (by decide) rfl (fun _ => rfl) (by decide)).1
    exact ⟨n, hn, le_trans (by decide) hln⟩
  · refine (c2_region_count_amended "k" "1" c2wrs [] c2wSt 100000 120000
      (by decide) (by decide) (by decide) rfl (fun _ => rfl) (by decide)).2 ?_
    intro x hx b h1 h2
    simp only [c2wrs, List.mem_singleton] at hx
    subst hx
    simp only at h1 h2 ⊢
    omega

/-- C1: the byte pattern delete_records derives from a table_id is a
Redis glob pattern built from raw msgpack bytes, and glob
metacharacters inside those bytes break prefix stability in both
directions: the pattern of table 42 (msgpack byte 0x2a, the glob star)
matches a record encoded for table 1, and the pattern of table 91
(msgpack byte 0x5b, which opens a glob character class) fails to match
table 91's own records.  For glob-free table ids the pattern does
behave as a prefix (last two conjuncts). -/
theorem c1_prefix_glob_code_bug :
    globRun (deleteMatchPat 42) (encodeRecord 1 0 0) = true ∧
    globRun (deleteMatchPat 91) (encodeRecord 91 0 0) = false ∧
    globRun (deleteMatchPat 1) (encodeRecord 1 0 0) = true ∧
    globRun (deleteMatchPat 1) (encodeRecord 2 0 0) = false := by
  refine ⟨by decide, by decide, by decide, by decide⟩

def c4t : Nat := 19553031

def c4tbl : Table := Table.mk "p4" "h4" "k" "snp" "json" []

def c4st0 : Store :=
  [(tablePathKey "p4", RVal.vint c4t), (tableMetaKey c4t, RVal.htable c4tbl)]

def c4pairs : List (Locus × Bytes) :=
  [(Locus.snp "1" 100, encodeRecord c4t 0 7),
   (Locus.snp "1" 200, encodeRecord c4t 0 5)]

def c4st1 : Store := ((insertRecords "k" c4pairs c4st0).getD ([], true)).1

def c4st2 : Store := (deleteTable c4st1 c4t).1

/-- C4: for table_id 19553031 (msgpack bytes 0xce 0x01 0x2a 0x5b 0x07,
holding both a glob star and a class opener) delete_table completes
without error - the glob pattern happens to match the record with
length 7, so the ZREM is nonempty and the transaction commits, and
both registry keys are removed - yet the record with length 5 survives
and query_records still returns it under the deleted table_id, against
the claim that after completion no record of the table remains. -/
theorem c4_delete_table_code_bug :
    insertRecords "k" c4pairs c4st0 = some (c4st1, false) ∧
    deleteTable c4st1 c4t = (c4st2, true) ∧
    getTable c4st2 c4t = none ∧
    getTableFromPath c4st2 "p4" = (none, none) ∧
    queryRecords c4st2 "k" "1" 0 1000000 = some [(c4t, [(0, 5)])] := by
  refine ⟨by decide, by decide, by decide, by decide, by decide⟩

def c5tbl : Table := Table.mk "p5" "h5" "k" "snp" "json" []

def c5st0 : Store :=
  [(tableMetaKey 1, RVal.htable c5tbl),
   (chrKey "k" "1",
    RVal.zset [(encodeRecord 1 0 0, 10), (encodeRecord 2 0 0, 20)])]

def c5st1 : Store :=
  [(tableMetaKey 1, RVal.htable c5tbl),
   (chrKey "k" "1", RVal.zset [(encodeRecord 2 0 0, 20)])]

/-- C5: delete_records is not idempotent when the chromosome key
survives the first call (here it still holds table 2's record): the
first call removes table 1's record and succeeds, but the second call
finds no matching member and issues ZREM with zero members, which the
server rejects at queue time, aborting the transaction - an error
raised to the caller, against the claim that the second call raises no
error. -/
theorem c5_delete_records_idempotence_code_bug :
    deleteRecords c5st0 1 = some (c5st1, false) ∧
    deleteRecords c5st1 1 = none := by
  refine ⟨by decide, by decide⟩

def c8tbl : Table := Table.mk "p8" "abc123" "k8" "snp" "json" []

/-- C8: commit_table on an id with no metadata entry does not fail -
despite its docstring announcing an existence assertion, the body
performs none, and the HSETs create a brand-new entry for the unknown
id, which lookup then returns. -/
theorem c8_commit_unknown_code_bug :
    getTable ([] : Store) 7 = none ∧
    commitTable ([] : Store) 7 c8tbl = [(tableMetaKey 7, RVal.htable c8tbl)] ∧
    getTable (commitTable ([] : Store) 7 c8tbl) 7 = some c8tbl := by
  refine ⟨by decide, by decide, by decide⟩

/-- C7: registering a table whose path already maps to an id fails
(register_table raises before performing any write), and the failed
call leaves the registry unchanged - the original id, its path mapping
and its metadata are untouched. -/
theorem c7_register_duplicate_fails (st : Store) (t : Table)
    (h : (slook st (tablePathKey t.path)).isSome = true) :
    registerTable st t = (none, st) := by
  simp [registerTable, h]

def c7tbl : Table := Table.mk "p" "h" "k" "snp" "json" []

def c7St : Store :=
  [(tablePathKey "p", RVal.vint 3), (tableMetaKey 3, RVal.htable c7tbl)]

/-- C7 witness: a concrete duplicate registration fails and preserves
the store. -/
theorem c7_register_duplicate_fails_witness :
    (slook c7St (tablePathKey "p")).isSome = true ∧
    registerTable c7St c7tbl = (none, c7St) :=
  ⟨by decide, c7_register_duplicate_fails c7St c7tbl (by decide)⟩
